import Mathlib

/-!
Verification of the `discord-exporter` message-export pipeline
(`src/discord-exporter/src/main.py`) against its natural-language
specification.

Text is modelled as `List Char` (Python strings index by character, so a
character list is the faithful representation; all length/slice operations
in the source are character-based).  Monotonic-clock instants
(`asyncio.get_event_loop().time()`) are modelled as integers, reaction
lists as `List (String × Nat)`, and the two collaborator effects (Google
Sheets sink, local Excel writer) as explicit outcome parameters.
-/

/-! ### Whitespace, `re.sub(r'\s+', ' ', text).strip()` -/

/-- The whitespace characters recognised by Python's `\s` (for `str`
patterns) and by `str.strip()` / `str.split()`. -/
def pySpaceChars : List Char :=
  [' ', '\t', '\n', '\x0B', '\x0C', '\r', '\x1C', '\x1D', '\x1E', '\x1F',
   '\u0085', '\u00A0', '\u1680', '\u2000', '\u2001', '\u2002', '\u2003', '\u2004',
   '\u2005', '\u2006', '\u2007', '\u2008', '\u2009', '\u200A', '\u2028', '\u2029',
   '\u202F', '\u205F', '\u3000']

def pySpace (c : Char) : Bool := pySpaceChars.contains c

/-- Remove one of each pair of adjacent `' '` characters, repeatedly; after
mapping every whitespace character to `' '`, this yields exactly the effect
of `re.sub(r'\s+', ' ', text)` (each maximal whitespace run becomes one
space). -/
def squeeze : List Char → List Char
  | [] => []
  | [c] => [c]
  | a :: b :: t =>
    if a = ' ' ∧ b = ' ' then squeeze (b :: t) else a :: squeeze (b :: t)

/-- Model of `re.sub(r'\s+', ' ', text)`: every maximal run of whitespace
characters is replaced by a single space. -/
def collapse (s : List Char) : List Char :=
  squeeze (s.map fun c => if pySpace c then ' ' else c)

/-- Model of Python `str.strip()`: drop whitespace from both ends. -/
def strip (s : List Char) : List Char :=
  ((s.dropWhile pySpace).reverse.dropWhile pySpace).reverse

/-! ### `str.replace(old, new)` -/

/-- Model of Python `s.replace(p, r)` for a non-empty pattern `p`:
leftmost-first, non-overlapping replacement.  `fuel` bounds the recursion;
`fuel ≥ s.length` is always sufficient because every step consumes at
least one character of `s`. -/
def replaceAllF (p r : List Char) : Nat → List Char → List Char
  | _, [] => []
  | 0, s => s
  | fuel + 1, c :: s =>
    if p.isPrefixOf (c :: s) then
      r ++ replaceAllF p r fuel ((c :: s).drop p.length)
    else
      c :: replaceAllF p r fuel s

def replaceAll (p r s : List Char) : List Char := replaceAllF p r s.length s

/-- Does `p` occur as a contiguous substring of `s`?  (`p in s` in Python.) -/
def containsSub (p : List Char) : List Char → Bool
  | [] => p.isEmpty
  | c :: s => p.isPrefixOf (c :: s) || containsSub p s

/-! ### The mis-decoding fix table and `clean_text` -/

/-- The `fixes` dictionary of `clean_text`, in source order.  Each entry is
(mis-decoded sequence, replacement); the characters are written with
explicit code points because several of them are visually ambiguous
mojibake. -/
def fixes : List (List Char × List Char) :=
  [ (['â', '€', '™'], ['\x27']),
    (['â', '€', 'œ'], ['\x22']),
    (['â', '€'],           ['\x22']),
    (['â', '€', '¢'], ['•']),
    (['â', '€', '“'], ['-']),
    (['Ã', '¼'], ['ü']),
    (['Ã', '±'], ['ñ']),
    (['Ä', '±'], ['ı']),
    (['Ä', 'Ÿ'], ['ğ']),
    (['Å', 'Ÿ'], ['ş']),
    (['Ã', '§'], ['ç']),
    (['Ã', '¶'], ['ö']) ]

/-- The `for old, new in fixes.items(): text = text.replace(old, new)` loop. -/
def applyFixes (s : List Char) : List Char :=
  fixes.foldl (fun t pr => replaceAll pr.1 pr.2 t) s

/-- `clean_text`: empty for empty input; otherwise collapse whitespace runs
to a single space, trim the ends, then apply the fix table one literal
replacement per entry, in table order. -/
def clean_text (t : List Char) : List Char :=
  if t = [] then [] else applyFixes (strip (collapse t))

/-- `preview`: the cleaned text unchanged if its character length is at most
`maxLen`, otherwise its first `maxLen` characters followed by `"..."`.
The length cap is `Config.MAX_CONTENT_PREVIEW` in the source; it is a
parameter here. -/
def preview (maxLen : Nat) (content : List Char) : List Char :=
  let txt := clean_text content
  if txt.length ≤ maxLen then txt else txt.take maxLen ++ ['.', '.', '.']

/-! ### `str.split()` and `re.findall(r'https?://[^\s]+', ...)` -/

/-- Worker for `pySplit`; the accumulator holds the reversed current word,
if a word is in progress. -/
def pySplitGo : List Char → Option (List Char) → List (List Char)
  | [], none => []
  | [], some w => [w.reverse]
  | c :: s, none =>
    if pySpace c then pySplitGo s none else pySplitGo s (some [c])
  | c :: s, some w =>
    if pySpace c then w.reverse :: pySplitGo s none
    else pySplitGo s (some (c :: w))

/-- Model of Python `str.split()` with no arguments: split on whitespace
runs, with no empty tokens. -/
def pySplit (s : List Char) : List (List Char) := pySplitGo s none

/-- Model of `re.findall(r'https?://[^\s]+', content)`: at each position, a
match requires the literal scheme prefix followed by at least one further
non-whitespace character, and consumes the maximal non-whitespace run;
scanning resumes after each match.  `fuel ≥ s.length` suffices. -/
def extractUrlsF : Nat → List Char → List (List Char)
  | _, [] => []
  | 0, _ => []
  | fuel + 1, c :: s =>
    let t := c :: s
    let pl : Nat :=
      if ("https://".toList).isPrefixOf t then 8
      else if ("http://".toList).isPrefixOf t then 7
      else 0
    if pl = 0 then extractUrlsF fuel s
    else
      let u := t.takeWhile fun d => !pySpace d
      if pl < u.length then u :: extractUrlsF fuel (t.drop u.length)
      else extractUrlsF fuel s

def extract_urls (s : List Char) : List (List Char) := extractUrlsF s.length s

/-! ### Data model -/

/-- Message kinds (`discord.MessageType`): the source only distinguishes
`default` from everything else; a few non-default kinds are named so that
the system-join filtering tests can be stated. -/
inductive MessageKind
  | default
  | systemJoin
  | pinned
  | other
deriving DecidableEq

/-- A raw message as yielded by `channel.history(...)`.  `createdAt` is the
`m.created_at.strftime('%Y-%m-%d %H:%M:%S')` rendering (UTC, second
precision), modelled as already formatted since the formatting itself is a
collaborator-supplied value. -/
structure RawMessage where
  id : Nat
  author : String
  createdAt : String
  content : List Char
  kind : MessageKind
  attachments : Nat
  reactions : List (String × Nat)
deriving DecidableEq

/-- Result of `format_reactions`. -/
structure ReactionInfo where
  total : Nat
  details : String
  unique : Nat
deriving DecidableEq

/-- `format_reactions`: zero/empty for no reactions; otherwise the sum of
counts, the `"<emoji>(<count>)"` entries joined by `" | "` in list order,
and the number of entries. -/
def format_reactions (reactions : List (String × Nat)) : ReactionInfo :=
  if reactions = [] then ⟨0, "", 0⟩
  else
    { total := (reactions.map Prod.snd).sum,
      details := String.intercalate " | "
        (reactions.map fun r => r.1 ++ "(" ++ toString r.2 ++ ")"),
      unique := reactions.length }

/-- One exported row, with exactly the fields of the dict built in
`export_channel`. -/
structure ExportRecord where
  timestamp : String
  channel : String
  guild : String
  author : String
  preview : List Char
  full : List Char
  length : Nat
  words : Nat
  reactions : Nat
  reaction_details : String
  attachments : Nat
  urls : Nat
  message_id : String
deriving DecidableEq

/-- The configuration surface used by the ingestion loop
(`Config.INCLUDE_SYSTEM_MESSAGES`, `Config.MAX_CONTENT_PREVIEW`,
`Config.CHANNEL_TIMEOUT_MINUTES*60`). -/
structure Config where
  includeSystem : Bool
  maxPreview : Nat
  timeoutSeconds : Int
deriving DecidableEq

/-- The record construction inside `export_channel`'s loop body. -/
def toRecord (cfg : Config) (channelName guildName : String) (m : RawMessage) :
    ExportRecord where
  timestamp := m.createdAt
  channel := channelName
  guild := guildName
  author := m.author
  preview := preview cfg.maxPreview m.content
  full := clean_text m.content
  length := m.content.length
  words := (pySplit m.content).length
  reactions := (format_reactions m.reactions).total
  reaction_details := (format_reactions m.reactions).details
  attachments := m.attachments
  urls := (extract_urls m.content).length
  message_id := toString m.id

/-- The `async for` loop of `export_channel` over the messages the source
yields, paired with the monotonic-clock instant at which each is received.
`start` is the watchdog reference instant: the loop breaks when
`now - start` exceeds the timeout, skips non-default kinds when system
messages are excluded (leaving `start` unchanged, because the `continue`
precedes the `start = now` line), and otherwise appends a record and sets
`start = now`. -/
def exportLoop (cfg : Config) (channelName guildName : String) :
    Int → List (Int × RawMessage) → List ExportRecord
  | _, [] => []
  | start, (now, m) :: rest =>
    if now - start > cfg.timeoutSeconds then []
    else if !cfg.includeSystem && m.kind != MessageKind.default then
      exportLoop cfg channelName guildName start rest
    else
      toRecord cfg channelName guildName m ::
        exportLoop cfg channelName guildName now rest

/-- `export_channel`: run the loop from the channel-ingestion start instant;
the returned list is also the reported per-channel count's basis
(`len(data)`). -/
def export_channel (cfg : Config) (channelName guildName : String)
    (startTime : Int) (msgs : List (Int × RawMessage)) : List ExportRecord :=
  exportLoop cfg channelName guildName startTime msgs

/-- One channel's worth of collaborator input: its names, the instant
`export_channel` starts, and the received messages with their arrival
instants. -/
structure ChannelData where
  name : String
  guild : String
  startTime : Int
  msgs : List (Int × RawMessage)

/-- The per-channel summary dict built in `export_messages`. -/
structure ChannelSummary where
  channel : String
  total_messages : Nat
  unique_authors : Nat
  total_reactions : Nat
  avg_length : ℚ

/-- The summary entry appended for a channel with data: count, distinct
authors (`nunique`), reaction sum, mean raw length. -/
def mkSummary (name : String) (data : List ExportRecord) : ChannelSummary where
  channel := name
  total_messages := data.length
  unique_authors := (data.map (·.author)).dedup.length
  total_reactions := (data.map (·.reactions)).sum
  avg_length := ((data.map (·.length)).sum : ℚ) / (data.length : ℚ)

/-- The ingestion half of `export_messages`: concatenate every channel's
records in channel order and append a summary entry only for channels whose
record list is non-empty. -/
def export_messages (cfg : Config) (chans : List ChannelData) :
    List ExportRecord × List ChannelSummary :=
  chans.foldl
    (fun acc ch =>
      let data := export_channel cfg ch.name ch.guild ch.startTime ch.msgs
      (acc.1 ++ data,
       if data = [] then acc.2 else acc.2 ++ [mkSummary ch.name data]))
    ([], [])

/-! ### Publisher -/

/-- The narrow column subset written to the remote "All Messages" sheet. -/
def narrowRow (r : ExportRecord) :
    String × String × String × List Char × Nat × String × Nat :=
  (r.timestamp, r.channel, r.author, r.preview, r.reactions,
   r.reaction_details, r.attachments)

def allMessagesRows (df : List ExportRecord) := df.map narrowRow

/-- `save_local`: writes only the full record table (`df.to_excel`); the
result is the file's row content.  The `summary` parameter is accepted and
never used, exactly as in the source. -/
def save_local (df : List ExportRecord) (summary : List ChannelSummary) :
    List ExportRecord :=
  df

/-- Outcome of one publish attempt. -/
inductive PublishResult
  | remote (url : String)
  | localFile (contents : List ExportRecord)
  | failure
deriving DecidableEq

/-- The publish tail of `export_messages` (lines 255-260): when the sheets
client is in use, try `upload_sheets` first — it catches every exception
internally and returns `None` on failure (`sinkResult` is its return
value) — and fall back to `save_local` when it returned `None`; without the
sheets client, go straight to `save_local`.  `localOk` records whether the
local write raises; a raise propagates and fails the run. -/
def publishRun (useSheets : Bool) (sinkResult : Option String) (localOk : Bool)
    (df : List ExportRecord) (summary : List ChannelSummary) : PublishResult :=
  if useSheets then
    match sinkResult with
    | some url => .remote url
    | none =>
      if localOk then .localFile (save_local df summary) else .failure
  else
    if localOk then .localFile (save_local df summary) else .failure

/-! ### The summary tables built in `upload_sheets` -/

/-- Grouping key of the Daily Activity table: `df['timestamp'].str[:10]`,
the `YYYY-MM-DD` prefix of the formatted UTC timestamp. -/
def dayKey (r : ExportRecord) : String := String.mk (r.timestamp.data.take 10)

/-- The distinct values of a key column in order of first occurrence. -/
def firstOccur : List String → List String
  | [] => []
  | k :: ks => k :: (firstOccur ks).filter (fun x => x ≠ k)

/-- Code-point lexicographic comparison on character lists (the order
pandas uses to sort string group keys). -/
def charListLe : List Char → List Char → Bool
  | [], _ => true
  | _ :: _, [] => false
  | a :: as, b :: bs => if a = b then charListLe as bs else decide (a < b)

def strLe (a b : String) : Bool := charListLe a.data b.data

/-- Model of `df.groupby(key)` with pandas' default `sort=True`: one group
per distinct key, listed in ascending key order, each holding the rows
whose key is exactly equal to it. -/
def groupRows (key : ExportRecord → String) (df : List ExportRecord) :
    List (String × List ExportRecord) :=
  (List.insertionSort (fun a b => strLe a b = true) (firstOccur (df.map key))).map
    fun k => (k, df.filter fun r => key r = k)

/-- The Daily Activity sheet rows: per date, message count, reaction sum,
distinct author count. -/
def dailyRows (df : List ExportRecord) : List (String × Nat × Nat × Nat) :=
  (groupRows dayKey df).map fun g =>
    (g.1, g.2.length, (g.2.map (·.reactions)).sum, (g.2.map (·.author)).dedup.length)

/-- The Author Activity sheet rows: per author, message count, reaction sum,
mean raw length. -/
def authorRows (df : List ExportRecord) : List (String × Nat × Nat × ℚ) :=
  (groupRows (·.author) df).map fun g =>
    (g.1, g.2.length, (g.2.map (·.reactions)).sum,
     ((g.2.map (·.length)).sum : ℚ) / (g.2.length : ℚ))

/-! ### Spec-side ingestion variants (for the stall-watchdog claim) -/

/-- Modelled from the spec: the stall-watchdog variant in which the clock
resets on every received message, accepted or filtered ("it resets on every
received message, including ones later filtered out"). -/
def ingestEveryReset (cfg : Config) (channelName guildName : String) :
    Int → List (Int × RawMessage) → List ExportRecord
  | _, [] => []
  | start, (now, m) :: rest =>
    if now - start > cfg.timeoutSeconds then []
    else if !cfg.includeSystem && m.kind != MessageKind.default then
      ingestEveryReset cfg channelName guildName now rest
    else
      toRecord cfg channelName guildName m ::
        ingestEveryReset cfg channelName guildName now rest

/-- Modelled from the amended spec: the clock resets only on accepted
messages; filtered-out messages leave the watchdog reference instant
unchanged. -/
def ingestAcceptReset (cfg : Config) (channelName guildName : String) :
    Int → List (Int × RawMessage) → List ExportRecord
  | _, [] => []
  | start, (now, m) :: rest =>
    if now - start > cfg.timeoutSeconds then []
    else if !cfg.includeSystem && m.kind != MessageKind.default then
      ingestAcceptReset cfg channelName guildName start rest
    else
      toRecord cfg channelName guildName m ::
        ingestAcceptReset cfg channelName guildName now rest

/-- Two concrete export records (descending day keys and author keys) used
to exhibit the output order of the summary tables. -/
def recB : ExportRecord :=
  ⟨"2025-01-02 09:00:00", "c", "g", "b", [], [], 0, 0, 0, "", 0, 0, "1"⟩

def recA : ExportRecord :=
  ⟨"2025-01-01 09:00:00", "c", "g", "a", [], [], 0, 0, 0, "", 0, 0, "2"⟩

/-- A minimal ordinary message, used to instantiate end-to-end runs. -/
def sampleMsg (i : Nat) : RawMessage :=
  ⟨i, "a", "2025-01-01 00:00:00", [], MessageKind.default, 0, []⟩

/-! ## Claim theorems -/

/-- C2: for every text `t` and configured maximum length `n`,
`preview(t, n)` has character length at most `n + 3`; it equals `clean(t)`
whenever the character length of `clean(t)` is at most `n`; and when
`clean(t)` is longer than `n` it is exactly the first `n` characters of
`clean(t)` followed by the fixed marker `"..."`, all by character count. -/
theorem preview_spec (t : List Char) (n : Nat) :
    (preview n t).length ≤ n + 3 ∧
    ((clean_text t).length ≤ n → preview n t = clean_text t) ∧
    (n < (clean_text t).length →
      preview n t = (clean_text t).take n ++ ['.', '.', '.']) := by
  unfold preview
  by_cases h : (clean_text t).length ≤ n
  · simp [h]; omega
  · rw [if_neg h]
    refine ⟨?_, fun h2 => absurd h2 h, fun _ => rfl⟩
    simp [List.length_take]

/-- Witness for C2 at a concrete text and both cap regimes. -/
theorem preview_spec_witness :
    preview 2 "ab".toList = clean_text "ab".toList ∧
    preview 1 "ab".toList = (clean_text "ab".toList).take 1 ++ ['.', '.', '.'] :=
  ⟨(preview_spec "ab".toList 2).2.1 (by decide),
   (preview_spec "ab".toList 1).2.2 (by decide)⟩

/-- C7: a message received within the stall timeout produces an
`ExportRecord` if and only if `includeSystem` is set or its kind is the
ordinary (`default`) kind; in particular a system/join message is dropped
when `includeSystem` is false and exported when it is true. -/
theorem message_included_iff (cfg : Config) (ch g : String) (s now : Int)
    (m : RawMessage) (h : now - s ≤ cfg.timeoutSeconds) :
    export_channel cfg ch g s [(now, m)]
      = if cfg.includeSystem ∨ m.kind = MessageKind.default
        then [toRecord cfg ch g m] else [] := by
  have hnb : ¬ (now - s > cfg.timeoutSeconds) := by omega
  unfold export_channel exportLoop
  rw [if_neg hnb]
  cases hik : cfg.includeSystem <;> cases hk : m.kind <;>
    simp [exportLoop, hik, hk]

/-- Witness for C7: a system-join message is excluded with
`includeSystem = false` and produces a record with `includeSystem = true`. -/
theorem message_included_iff_witness :
    export_channel ⟨false, 100, 300⟩ "c" "g" 0
      [(1, ⟨1, "a", "t", [], MessageKind.systemJoin, 0, []⟩)] = [] ∧
    export_channel ⟨true, 100, 300⟩ "c" "g" 0
      [(1, ⟨1, "a", "t", [], MessageKind.systemJoin, 0, []⟩)]
      = [toRecord ⟨true, 100, 300⟩ "c" "g"
          ⟨1, "a", "t", [], MessageKind.systemJoin, 0, []⟩] := by
  constructor
  · rw [message_included_iff ⟨false, 100, 300⟩ "c" "g" 0 1 _ (by decide)]
    decide
  · rw [message_included_iff ⟨true, 100, 300⟩ "c" "g" 0 1 _ (by decide)]
    decide

/-- C8: `format_reactions` returns the sum of all reaction counts (0 when
none), the entries formatted `"<emoji>(<count>)"` joined by `" | "` in the
given order (empty string when none), and the number of reaction entries —
which equals the number of distinct entries whenever the source's entries
are pairwise distinct (as Discord's per-emoji aggregation guarantees). -/
theorem format_reactions_spec (rs : List (String × Nat)) :
    (format_reactions rs).total = (rs.map Prod.snd).sum ∧
    (format_reactions rs).details
      = String.intercalate " | " (rs.map fun r => r.1 ++ "(" ++ toString r.2 ++ ")") ∧
    (format_reactions rs).unique = rs.length ∧
    (rs.Nodup → (format_reactions rs).unique = rs.dedup.length) := by
  by_cases h : rs = []
  · subst h; exact ⟨rfl, rfl, rfl, fun _ => rfl⟩
  · unfold format_reactions
    rw [if_neg h]
    exact ⟨rfl, rfl, rfl, fun hn => by simp [hn.dedup]⟩

/-- Witness for C8 on the spec's example `[("👍",3), ("🎉",1)]`:
total 4, details `"👍(3) | 🎉(1)"`, uniqueCount 2. -/
theorem format_reactions_spec_witness :
    (format_reactions [("👍", 3), ("🎉", 1)]).total = 4 ∧
    (format_reactions [("👍", 3), ("🎉", 1)]).details = "👍(3) | 🎉(1)" ∧
    (format_reactions [("👍", 3), ("🎉", 1)]).unique = 2 ∧
    (format_reactions [("👍", 3), ("🎉", 1)]).unique
      = [("👍", 3), ("🎉", 1)].dedup.length :=
  ⟨(format_reactions_spec _).1.trans (by decide),
   (format_reactions_spec _).2.1.trans (by decide),
   (format_reactions_spec _).2.2.1.trans (by decide),
   (format_reactions_spec _).2.2.2 (by decide)⟩

/-- C6: every produced `ExportRecord` has `length` equal to the character
count of the raw (uncleaned) body and `words` equal to the
whitespace-delimited token count of the raw body. -/
theorem record_from_raw_body (cfg : Config) (ch g : String) (m : RawMessage) :
    (toRecord cfg ch g m).length = m.content.length ∧
    (toRecord cfg ch g m).words = (pySplit m.content).length :=
  ⟨rfl, rfl⟩

/-- C5: when the remote sink fails (`upload_sheets` caught the failure and
returned `None`), a successful local write receives the full, unfiltered
record set and the run succeeds; the run fails exactly when the local write
also fails. -/
theorem publish_fallback (df : List ExportRecord) (summary : List ChannelSummary)
    (sinkResult : Option String) (localOk : Bool) (hsink : sinkResult = none) :
    (localOk = true →
      publishRun true sinkResult localOk df summary = .localFile df) ∧
    (publishRun true sinkResult localOk df summary = .failure ↔ localOk = false) := by
  subst hsink
  cases localOk <;> simp [publishRun, save_local]

/-- Witness for C5 at a concrete failing sink and succeeding local write. -/
theorem publish_fallback_witness :
    publishRun true none true [] [] = .localFile [] ∧
    ¬ (publishRun true none true [] [] = .failure) := by
  have h := publish_fallback [] [] none true rfl
  exact ⟨h.1 rfl, fun hc => by simpa using h.2.mp hc⟩

/-- C10: the local writer persists only the record table; the summary
argument has no effect on the file contents, which are the full record
set. -/
theorem save_local_ignores_summary (df : List ExportRecord)
    (s1 s2 : List ChannelSummary) :
    save_local df s1 = save_local df s2 ∧ save_local df s1 = df :=
  ⟨rfl, rfl⟩

/-- C1 counterexample: with a 5-second stall timeout, a filtered
system-join message arriving 4 seconds in does not reset the watchdog
clock, so an ordinary message arriving 4 seconds later (8 seconds after
start) trips the watchdog and is dropped — whereas under the claimed
"resets on every received message" semantics it would be exported. -/
theorem stall_clock_every_reset_counterexample :
    export_channel ⟨false, 100, 5⟩ "c" "g" 0
      [(4, ⟨1, "alice", "2025-01-01 00:00:01", [], MessageKind.systemJoin, 0, []⟩),
       (8, ⟨2, "bob", "2025-01-01 00:00:02", [], MessageKind.default, 0, []⟩)] = [] ∧
    ingestEveryReset ⟨false, 100, 5⟩ "c" "g" 0
      [(4, ⟨1, "alice", "2025-01-01 00:00:01", [], MessageKind.systemJoin, 0, []⟩),
       (8, ⟨2, "bob", "2025-01-01 00:00:02", [], MessageKind.default, 0, []⟩)]
      = [toRecord ⟨false, 100, 5⟩ "c" "g"
          ⟨2, "bob", "2025-01-01 00:00:02", [], MessageKind.default, 0, []⟩] := by
  decide

/-- C1 (amended): the stall-watchdog clock is reset only when a message is
accepted; for any incoming message the elapsed time compared against the
timeout is the time since the previous accepted message (or since ingestion
start), and messages filtered out by the include-system check leave the
clock unchanged. -/
theorem stall_clock_resets_on_accept_only (cfg : Config) (ch g : String)
    (start : Int) (msgs : List (Int × RawMessage)) :
    export_channel cfg ch g start msgs = ingestAcceptReset cfg ch g start msgs := by
  unfold export_channel
  induction msgs generalizing start with
  | nil => rfl
  | cons hd tl ih =>
    obtain ⟨now, m⟩ := hd
    simp only [exportLoop, ingestAcceptReset]
    split
    · rfl
    · split
      · exact ih start
      · rw [ih now]

/-- Total comparison: `charListLe` relates every pair one way or the other. -/
theorem charListLe_total : ∀ a b, charListLe a b = true ∨ charListLe b a = true := by
  intro a
  induction a with
  | nil => intro b; left; rfl
  | cons x xs ih =>
    intro b
    cases b with
    | nil => right; rfl
    | cons y ys =>
      simp only [charListLe]
      by_cases hxy : x = y
      · subst hxy
        rw [if_pos rfl, if_pos rfl]
        exact ih ys
      · rw [if_neg hxy, if_neg (Ne.symm hxy)]
        rcases lt_or_gt_of_ne hxy with h | h
        · left; simpa using h
        · right; simpa using h

/-- Transitivity of the code-point lexicographic comparison. -/
theorem charListLe_trans :
    ∀ a b c, charListLe a b = true → charListLe b c = true → charListLe a c = true := by
  intro a
  induction a with
  | nil => intro b c _ _; rfl
  | cons x xs ih =>
    intro b c h1 h2
    cases b with
    | nil => simp [charListLe] at h1
    | cons y ys =>
      cases c with
      | nil => simp [charListLe] at h2
      | cons z zs =>
        simp only [charListLe] at h1 h2 ⊢
        by_cases hxy : x = y
        · subst hxy
          rw [if_pos rfl] at h1
          by_cases hxz : x = z
          · subst hxz
            rw [if_pos rfl] at h2
            rw [if_pos rfl]
            exact ih ys zs h1 h2
          · rw [if_neg hxz] at h2
            rw [if_neg hxz]
            exact h2
        · rw [if_neg hxy] at h1
          by_cases hyz : y = z
          · subst hyz
            rw [if_neg hxy]
            exact h1
          · rw [if_neg hyz] at h2
            have hlt : x < z :=
              lt_trans (of_decide_eq_true h1) (of_decide_eq_true h2)
            rw [if_neg (ne_of_lt hlt)]
            exact decide_eq_true hlt

/-- The key column of a grouped table is the sorted list of distinct keys. -/
theorem groupRows_keys (key : ExportRecord → String) (df : List ExportRecord) :
    (groupRows key df).map Prod.fst
      = List.insertionSort (fun a b => strLe a b = true) (firstOccur (df.map key)) := by
  unfold groupRows
  rw [List.map_map]
  exact List.map_id _

/-- C4 counterexample: with two records whose day keys (2025-01-02 then
2025-01-01) and authors ("b" then "a") both occur in descending order, the
Daily Activity and Author Activity rows come out ascending — the key
columns are not the first-occurrence sequences the claim asserts. -/
theorem summary_rows_insertion_order_counterexample :
    ¬ ((dailyRows [recB, recA]).map Prod.fst
        = firstOccur ([recB, recA].map dayKey)) ∧
    ¬ ((authorRows [recB, recA]).map Prod.fst
        = firstOccur ([recB, recA].map (·.author))) := by
  decide

/-- C4 (amended): the Daily Activity and Author Activity rows appear in
ascending sorted order of their grouping key — pandas' `groupby` default —
not in insertion order of first occurrence; the key column is a sorted
permutation of the distinct (first-occurrence) keys, with grouping by exact
equality on the UTC `YYYY-MM-DD` timestamp prefix and on the author
string. -/
theorem summary_rows_sorted (df : List ExportRecord) :
    ((dailyRows df).map Prod.fst).Sorted (fun a b => strLe a b = true) ∧
    ((dailyRows df).map Prod.fst).Perm (firstOccur (df.map dayKey)) ∧
    ((authorRows df).map Prod.fst).Sorted (fun a b => strLe a b = true) ∧
    ((authorRows df).map Prod.fst).Perm (firstOccur (df.map (·.author))) := by
  haveI hT : IsTotal String fun a b => strLe a b = true :=
    ⟨fun a b => charListLe_total a.data b.data⟩
  haveI hTr : IsTrans String fun a b => strLe a b = true :=
    ⟨fun a b c => charListLe_trans a.data b.data c.data⟩
  have hd : (dailyRows df).map Prod.fst
      = List.insertionSort (fun a b => strLe a b = true)
          (firstOccur (df.map dayKey)) := by
    unfold dailyRows
    rw [List.map_map]
    have h := groupRows_keys dayKey df
    rw [← h]
    rfl
  have ha : (authorRows df).map Prod.fst
      = List.insertionSort (fun a b => strLe a b = true)
          (firstOccur (df.map (·.author))) := by
    unfold authorRows
    rw [List.map_map]
    have h := groupRows_keys (·.author) df
    rw [← h]
    rfl
  refine ⟨?_, ?_, ?_, ?_⟩
  · rw [hd]; exact List.sorted_insertionSort _ _
  · rw [hd]; exact List.perm_insertionSort _ _
  · rw [ha]; exact List.sorted_insertionSort _ _
  · rw [ha]; exact List.perm_insertionSort _ _

/-- Every within-timeout, all-ordinary message sequence is exported in
full, one record per message. -/
theorem export_channel_all_accepted (cfg : Config) (ch g : String) (s : Int)
    (msgs : List (Int × RawMessage))
    (ht : 0 ≤ cfg.timeoutSeconds)
    (hm : ∀ tm ∈ msgs, tm.1 = s ∧ tm.2.kind = MessageKind.default) :
    export_channel cfg ch g s msgs = msgs.map fun tm => toRecord cfg ch g tm.2 := by
  unfold export_channel
  induction msgs with
  | nil => rfl
  | cons hd tl ih =>
    obtain ⟨now, m⟩ := hd
    obtain ⟨hnow, hkind⟩ := hm _ (List.mem_cons_self _ _)
    subst hnow
    have hnb : ¬ (now - now > cfg.timeoutSeconds) := by omega
    have hk : m.kind = MessageKind.default := hkind
    have hfilter : (!cfg.includeSystem && m.kind != MessageKind.default) = false := by
      simp [hk]
    simp only [exportLoop, if_neg hnb, hfilter, Bool.false_eq_true, if_false, List.map_cons]
    exact congrArg _ (ih fun tm htm => hm tm (List.mem_cons_of_mem _ htm))

/-- C9: a channel with zero in-window messages yields an empty sequence
(count 0) and is omitted from the summaries; a run over three channels
with 5, 0 and 2 promptly-arriving ordinary messages and no watchdog trips
produces exactly 7 concatenated records and exactly 2 channel-summary
entries. -/
theorem zero_channel_and_seven_records (cfg : Config) (c1 c2 c3 : ChannelData)
    (ht : 0 ≤ cfg.timeoutSeconds)
    (h1 : ∀ tm ∈ c1.msgs, tm.1 = c1.startTime ∧ tm.2.kind = MessageKind.default)
    (h3 : ∀ tm ∈ c3.msgs, tm.1 = c3.startTime ∧ tm.2.kind = MessageKind.default)
    (hn1 : c1.msgs.length = 5) (hn2 : c2.msgs = []) (hn3 : c3.msgs.length = 2) :
    export_channel cfg c2.name c2.guild c2.startTime c2.msgs = [] ∧
    (export_messages cfg [c1, c2, c3]).1.length = 7 ∧
    (export_messages cfg [c1, c2, c3]).2.length = 2 := by
  have e1 := export_channel_all_accepted cfg c1.name c1.guild c1.startTime c1.msgs ht h1
  have e3 := export_channel_all_accepted cfg c3.name c3.guild c3.startTime c3.msgs ht h3
  have e2 : export_channel cfg c2.name c2.guild c2.startTime c2.msgs = [] := by
    rw [hn2]; rfl
  have l1 : (export_channel cfg c1.name c1.guild c1.startTime c1.msgs).length = 5 := by
    rw [e1, List.length_map, hn1]
  have l3 : (export_channel cfg c3.name c3.guild c3.startTime c3.msgs).length = 2 := by
    rw [e3, List.length_map, hn3]
  have ne1 : export_channel cfg c1.name c1.guild c1.startTime c1.msgs ≠ [] := by
    intro hc; rw [hc] at l1; simp at l1
  have ne3 : export_channel cfg c3.name c3.guild c3.startTime c3.msgs ≠ [] := by
    intro hc; rw [hc] at l3; simp at l3
  refine ⟨e2, ?_, ?_⟩
  · simp only [export_messages, List.foldl, e2, ne1, ne3, if_false, if_true,
      List.append_nil, List.nil_append, List.length_append]
    simp [ne1, ne3, l1, l3]
  · simp only [export_messages, List.foldl, e2]
    simp [ne1, ne3]

/-- Witness for C9 on a concrete three-channel run with 5, 0 and 2
messages. -/
theorem zero_channel_and_seven_records_witness :
    export_channel ⟨true, 100, 300⟩ "c2" "g" 0 [] = [] ∧
    (export_messages ⟨true, 100, 300⟩
      [⟨"c1", "g", 0, [(0, sampleMsg 1), (0, sampleMsg 2), (0, sampleMsg 3),
                       (0, sampleMsg 4), (0, sampleMsg 5)]⟩,
       ⟨"c2", "g", 0, []⟩,
       ⟨"c3", "g", 0, [(0, sampleMsg 6), (0, sampleMsg 7)]⟩]).1.length = 7 ∧
    (export_messages ⟨true, 100, 300⟩
      [⟨"c1", "g", 0, [(0, sampleMsg 1), (0, sampleMsg 2), (0, sampleMsg 3),
                       (0, sampleMsg 4), (0, sampleMsg 5)]⟩,
       ⟨"c2", "g", 0, []⟩,
       ⟨"c3", "g", 0, [(0, sampleMsg 6), (0, sampleMsg 7)]⟩]).2.length = 2 :=
  zero_channel_and_seven_records ⟨true, 100, 300⟩
    ⟨"c1", "g", 0, [(0, sampleMsg 1), (0, sampleMsg 2), (0, sampleMsg 3),
                    (0, sampleMsg 4), (0, sampleMsg 5)]⟩
    ⟨"c2", "g", 0, []⟩
    ⟨"c3", "g", 0, [(0, sampleMsg 6), (0, sampleMsg 7)]⟩
    (by decide) (by decide) (by decide) (by decide) rfl (by decide)

/-! ### Idempotence of `clean_text` (C3) -/

theorem containsSub_append (q a b : List Char)
    (h : containsSub q (a ++ b) = true) :
    (∃ c ∈ a, c ∈ q) ∨ containsSub q b = true := by
  induction a with
  | nil => exact Or.inr h
  | cons x xs ih =>
    simp only [List.cons_append, containsSub, Bool.or_eq_true] at h
    rcases h with h | h
    · cases q with
      | nil => exact Or.inr (by cases b <;> simp [containsSub])
      | cons d q' =>
        have hd : d = x := by
          simp only [List.isPrefixOf, Bool.and_eq_true, beq_iff_eq] at h
          exact h.1
        exact Or.inl ⟨x, List.mem_cons_self x xs, hd ▸ List.mem_cons_self d q'⟩
    · rcases ih h with h2 | h2
      · exact Or.inl ⟨h2.choose, List.mem_cons_of_mem _ h2.choose_spec.1, h2.choose_spec.2⟩
      · exact Or.inr h2

theorem containsSub_tail_false (q : List Char) (c : Char) (t : List Char)
    (h : containsSub q (c :: t) = false) : containsSub q t = false := by
  simp only [containsSub, Bool.or_eq_false_iff] at h
  exact h.2

theorem containsSub_drop_false (q : List Char) :
    ∀ (k : Nat) (s : List Char), containsSub q s = false →
      containsSub q (s.drop k) = false := by
  intro k
  induction k with
  | zero => intro s h; simpa using h
  | succ n ih =>
    intro s h
    cases s with
    | nil => simpa using h
    | cons c t => exact ih t (containsSub_tail_false q c t h)

theorem replaceAllF_eq_nil_iff (p r : List Char) (hr : r ≠ []) :
    ∀ (fuel : Nat) (s : List Char), replaceAllF p r fuel s = [] ↔ s = [] := by
  intro fuel s
  cases fuel with
  | zero => cases s <;> simp [replaceAllF]
  | succ n =>
    cases s with
    | nil => simp [replaceAllF]
    | cons c t =>
      simp only [replaceAllF]
      constructor
      · intro h
        split at h
        · exact absurd h (by simp [hr])
        · exact absurd h (by simp)
      · intro h; exact absurd h (by simp)

theorem mem_replaceAllF (p r : List Char) :
    ∀ (fuel : Nat) (s : List Char) (c : Char),
      c ∈ replaceAllF p r fuel s → c ∈ s ∨ c ∈ r := by
  intro fuel
  induction fuel with
  | zero =>
    intro s c hc
    cases s with
    | nil => simp [replaceAllF] at hc
    | cons a t => exact Or.inl hc
  | succ n ih =>
    intro s c hc
    cases s with
    | nil => simp [replaceAllF] at hc
    | cons a t =>
      simp only [replaceAllF] at hc
      split at hc
      · rcases List.mem_append.mp hc with h | h
        · exact Or.inr h
        · rcases ih _ _ h with h2 | h2
          · exact Or.inl (List.mem_of_mem_drop h2)
          · exact Or.inr h2
      · rcases List.mem_cons.mp hc with h | h
        · exact Or.inl (h ▸ List.mem_cons_self a t)
        · rcases ih _ _ h with h2 | h2
          · exact Or.inl (List.mem_cons_of_mem _ h2)
          · exact Or.inr h2

theorem head?_replaceAllF (p r : List Char) (hr : r ≠ []) :
    ∀ (fuel : Nat) (s : List Char) (c : Char),
      (replaceAllF p r fuel s).head? = some c → s.head? = some c ∨ c ∈ r := by
  intro fuel s c hc
  cases fuel with
  | zero =>
    cases s with
    | nil => simp [replaceAllF] at hc
    | cons a t => exact Or.inl hc
  | succ n =>
    cases s with
    | nil => simp [replaceAllF] at hc
    | cons a t =>
      simp only [replaceAllF] at hc
      split at hc
      · obtain ⟨rh, rt, rfl⟩ := List.exists_cons_of_ne_nil hr
        simp only [List.cons_append, List.head?_cons, Option.some.injEq] at hc
        exact Or.inr (hc ▸ List.mem_cons_self rh rt)
      · simp only [List.head?_cons, Option.some.injEq] at hc
        exact Or.inl (by simp [hc])

theorem getLast?_drop_some (c : Char) :
    ∀ (k : Nat) (s : List Char), (s.drop k).getLast? = some c →
      s.getLast? = some c := by
  intro k
  induction k with
  | zero => intro s h; simpa using h
  | succ n ih =>
    intro s h
    cases s with
    | nil => simp at h
    | cons a t =>
      have h2 : t.getLast? = some c := ih t h
      have ht : t ≠ [] := by
        intro hte
        rw [hte] at h2
        simp at h2
      obtain ⟨b, t', rfl⟩ := List.exists_cons_of_ne_nil ht
      rw [List.getLast?_cons_cons]
      exact h2

theorem getLast?_replaceAllF (p r : List Char) (hr : r ≠ []) :
    ∀ (fuel : Nat) (s : List Char) (c : Char),
      (replaceAllF p r fuel s).getLast? = some c →
      s.getLast? = some c ∨ c ∈ r := by
  intro fuel
  induction fuel with
  | zero =>
    intro s c hc
    cases s with
    | nil => simp [replaceAllF] at hc
    | cons a t => exact Or.inl hc
  | succ n ih =>
    intro s c hc
    cases s with
    | nil => simp [replaceAllF] at hc
    | cons a t =>
      simp only [replaceAllF] at hc
      split at hc
      · by_cases hrest : replaceAllF p r n ((a :: t).drop p.length) = []
        · rw [hrest, List.append_nil] at hc
          exact Or.inr (List.mem_of_mem_getLast? (by simp [hc]))
        · rw [List.getLast?_append_of_ne_nil _ hrest] at hc
          rcases ih _ _ hc with h2 | h2
          · exact Or.inl (getLast?_drop_some c p.length _ h2)
          · exact Or.inr h2
      · by_cases hrest : replaceAllF p r n t = []
        · have ht : t = [] := (replaceAllF_eq_nil_iff p r hr n t).mp hrest
          subst ht
          rw [hrest] at hc
          simp at hc
          exact Or.inl (by simp [hc])
        · obtain ⟨b, t', hbt⟩ := List.exists_cons_of_ne_nil hrest
          rw [hbt, List.getLast?_cons_cons, ← hbt] at hc
          rcases ih _ _ hc with h2 | h2
          · have ht : t ≠ [] := by
              intro hte
              rw [hte] at h2
              simp at h2
            obtain ⟨b2, t2, rfl⟩ := List.exists_cons_of_ne_nil ht
            rw [List.getLast?_cons_cons]
            exact Or.inl h2
          · exact Or.inr h2

theorem prefixOf_replaceAllF (p r : List Char) (hr : r ≠ []) :
    ∀ (fuel : Nat) (s q1 : List Char), (∀ c ∈ q1, c ∉ r) →
      q1.isPrefixOf (replaceAllF p r fuel s) = true → q1.isPrefixOf s = true := by
  intro fuel
  induction fuel with
  | zero =>
    intro s q1 _ hpre
    cases s with
    | nil => simpa [replaceAllF] using hpre
    | cons a t => exact hpre
  | succ n ih =>
    intro s q1 hdisj hpre
    cases s with
    | nil => simpa [replaceAllF] using hpre
    | cons a t =>
      simp only [replaceAllF] at hpre
      split at hpre
      · cases q1 with
        | nil => rfl
        | cons d q' =>
          obtain ⟨rh, rt, rfl⟩ := List.exists_cons_of_ne_nil hr
          simp only [List.cons_append, List.isPrefixOf, Bool.and_eq_true,
            beq_iff_eq] at hpre
          exact absurd (hpre.1 ▸ List.mem_cons_self rh rt)
            (hdisj d (List.mem_cons_self d q'))
      · cases q1 with
        | nil => rfl
        | cons d q' =>
          simp only [List.isPrefixOf, Bool.and_eq_true, beq_iff_eq] at hpre ⊢
          refine ⟨hpre.1, ?_⟩
          exact ih t q' (fun c hc => hdisj c (List.mem_cons_of_mem d hc)) hpre.2

theorem containsSub_replaceAllF_self (p r : List Char)
    (hp : p ≠ []) (hr : r ≠ []) (hdisj : ∀ c ∈ r, c ∉ p) :
    ∀ (fuel : Nat) (s : List Char), s.length ≤ fuel →
      containsSub p (replaceAllF p r fuel s) = false := by
  intro fuel
  induction fuel with
  | zero =>
    intro s hf
    have hse : s = [] := List.eq_nil_of_length_eq_zero (Nat.le_zero.mp hf)
    subst hse
    obtain ⟨ph, pt, rfl⟩ := List.exists_cons_of_ne_nil hp
    simp [replaceAllF, containsSub]
  | succ n ih =>
    intro s hf
    cases s with
    | nil =>
      obtain ⟨ph, pt, rfl⟩ := List.exists_cons_of_ne_nil hp
      simp [replaceAllF, containsSub]
    | cons a t =>
      simp only [replaceAllF]
      split
      · rename_i hmatch
        have hplen : 1 ≤ p.length := by
          cases p with
          | nil => exact absurd rfl hp
          | cons _ _ => simp
        have hdroplen : ((a :: t).drop p.length).length ≤ n := by
          simp only [List.length_drop, List.length_cons]
          simp only [List.length_cons] at hf
          omega
        have hrest := ih _ hdroplen
        cases hres : containsSub p (r ++ replaceAllF p r n ((a :: t).drop p.length)) with
        | false => rfl
        | true =>
          rcases containsSub_append p r _ hres with ⟨c, hcr, hcp⟩ | h2
          · exact absurd hcp (hdisj c hcr)
          · rw [hrest] at h2; exact absurd h2 (by simp)
      · rename_i hnomatch
        have htlen : t.length ≤ n := by
          simp only [List.length_cons] at hf
          omega
        have hrest := ih t htlen
        simp only [containsSub, Bool.or_eq_false_iff]
        refine ⟨?_, hrest⟩
        cases hpre : p.isPrefixOf (a :: replaceAllF p r n t) with
        | false => rfl
        | true =>
          exfalso
          obtain ⟨d, q', rfl⟩ := List.exists_cons_of_ne_nil hp
          simp only [List.isPrefixOf, Bool.and_eq_true, beq_iff_eq] at hpre
          have hq' : q'.isPrefixOf t = true := by
            refine prefixOf_replaceAllF (d :: q') r hr n t q' ?_ hpre.2
            intro c hc hcr
            exact hdisj c hcr (List.mem_cons_of_mem d hc)
          have hps : (d :: q').isPrefixOf (a :: t) = true := by
            simp only [List.isPrefixOf, Bool.and_eq_true, beq_iff_eq]
            exact ⟨hpre.1, hq'⟩
          exact hnomatch hps

theorem containsSub_replaceAllF_other (p r q : List Char)
    (hr : r ≠ []) (hdisj : ∀ c ∈ r, c ∉ q) :
    ∀ (fuel : Nat) (s : List Char),
      containsSub q s = false →
      containsSub q (replaceAllF p r fuel s) = false := by
  intro fuel
  induction fuel with
  | zero =>
    intro s hs
    cases s with
    | nil => simpa [replaceAllF] using hs
    | cons a t => exact hs
  | succ n ih =>
    intro s hs
    cases s with
    | nil => simpa [replaceAllF] using hs
    | cons a t =>
      have hq : q ≠ [] := by
        intro hqe
        subst hqe
        simp [containsSub, List.isPrefixOf] at hs
      simp only [replaceAllF]
      split
      · have hdropped : containsSub q ((a :: t).drop p.length) = false :=
          containsSub_drop_false q p.length _ hs
        have hrest := ih _ hdropped
        cases hres : containsSub q (r ++ replaceAllF p r n ((a :: t).drop p.length)) with
        | false => rfl
        | true =>
          rcases containsSub_append q r _ hres with ⟨c, hcr, hcq⟩ | h2
          · exact absurd hcq (hdisj c hcr)
          · rw [hrest] at h2; exact absurd h2 (by simp)
      · have htail : containsSub q t = false := containsSub_tail_false q a t hs
        have hrest := ih t htail
        simp only [containsSub, Bool.or_eq_false_iff]
        refine ⟨?_, hrest⟩
        cases hpre : q.isPrefixOf (a :: replaceAllF p r n t) with
        | false => rfl
        | true =>
          exfalso
          obtain ⟨d, q', rfl⟩ := List.exists_cons_of_ne_nil hq
          simp only [List.isPrefixOf, Bool.and_eq_true, beq_iff_eq] at hpre
          have hq' : q'.isPrefixOf t = true := by
            refine prefixOf_replaceAllF p r hr n t q' ?_ hpre.2
            intro c hc hcr
            exact hdisj c hcr (List.mem_cons_of_mem d hc)
          have hqs : (d :: q').isPrefixOf (a :: t) = true := by
            simp only [List.isPrefixOf, Bool.and_eq_true, beq_iff_eq]
            exact ⟨hpre.1, hq'⟩
          have : containsSub (d :: q') (a :: t) = true := by
            simp only [containsSub, Bool.or_eq_true]
            exact Or.inl hqs
          rw [hs] at this
          exact absurd this (by simp)

theorem replaceAllF_id (p r : List Char) :
    ∀ (fuel : Nat) (s : List Char), containsSub p s = false →
      replaceAllF p r fuel s = s := by
  intro fuel
  induction fuel with
  | zero =>
    intro s _
    cases s <;> rfl
  | succ n ih =>
    intro s hs
    cases s with
    | nil => rfl
    | cons a t =>
      simp only [replaceAllF]
      split
      · rename_i hmatch
        exfalso
        have : containsSub p (a :: t) = true := by
          simp only [containsSub, Bool.or_eq_true]
          exact Or.inl hmatch
        rw [hs] at this
        exact absurd this (by simp)
      · rw [ih t (containsSub_tail_false p a t hs)]

theorem foldl_replace_preserve (l : List (List Char × List Char)) (q : List Char)
    (hq : ∀ pr ∈ l, pr.2 ≠ [] ∧ ∀ c ∈ pr.2, c ∉ q) :
    ∀ s, containsSub q s = false →
      containsSub q (l.foldl (fun t pr => replaceAll pr.1 pr.2 t) s) = false := by
  induction l with
  | nil => intro s hs; exact hs
  | cons hd tl ih =>
    intro s hs
    simp only [List.foldl_cons]
    refine ih (fun pr hpr => hq pr (List.mem_cons_of_mem _ hpr)) _ ?_
    have h := hq hd (List.mem_cons_self _ _)
    exact containsSub_replaceAllF_other hd.1 hd.2 q h.1 h.2 s.length s hs

theorem foldl_replace_no_pattern (l : List (List Char × List Char))
    (hne : ∀ pr ∈ l, pr.1 ≠ [] ∧ pr.2 ≠ [])
    (hdisj : ∀ pr ∈ l, ∀ qr ∈ l, ∀ c ∈ pr.2, c ∉ qr.1) :
    ∀ s, ∀ pr ∈ l,
      containsSub pr.1 (l.foldl (fun t pr => replaceAll pr.1 pr.2 t) s) = false := by
  induction l with
  | nil => intro s pr hpr; simp at hpr
  | cons hd tl ih =>
    intro s pr hpr
    simp only [List.foldl_cons]
    rcases List.mem_cons.mp hpr with rfl | hpr'
    · refine foldl_replace_preserve tl pr.1 ?_ _ ?_
      · intro qr hqr
        exact ⟨(hne qr (List.mem_cons_of_mem _ hqr)).2,
          hdisj qr (List.mem_cons_of_mem _ hqr) pr (List.mem_cons_self _ _)⟩
      · have h := hne pr (List.mem_cons_self _ _)
        have hd2 := hdisj pr (List.mem_cons_self _ _) pr (List.mem_cons_self _ _)
        exact containsSub_replaceAllF_self pr.1 pr.2 h.1 h.2 hd2 s.length s le_rfl
    · exact ih (fun a ha => hne a (List.mem_cons_of_mem _ ha))
        (fun a ha b hb =>
          hdisj a (List.mem_cons_of_mem _ ha) b (List.mem_cons_of_mem _ hb))
        _ pr hpr'

theorem foldl_replace_id (l : List (List Char × List Char)) :
    ∀ s, (∀ pr ∈ l, containsSub pr.1 s = false) →
      l.foldl (fun t pr => replaceAll pr.1 pr.2 t) s = s := by
  induction l with
  | nil => intro s _; rfl
  | cons hd tl ih =>
    intro s hs
    simp only [List.foldl_cons]
    rw [show replaceAll hd.1 hd.2 s = s from
      replaceAllF_id hd.1 hd.2 s.length s (hs hd (List.mem_cons_self _ _))]
    exact ih s fun pr hpr => hs pr (List.mem_cons_of_mem _ hpr)

theorem foldl_replace_allWs (l : List (List Char × List Char))
    (hl : ∀ pr ∈ l, ∀ c ∈ pr.2, pySpace c = false) :
    ∀ s, (∀ c ∈ s, pySpace c = true → c = ' ') →
      ∀ c ∈ l.foldl (fun t pr => replaceAll pr.1 pr.2 t) s,
        pySpace c = true → c = ' ' := by
  induction l with
  | nil => intro s hs; exact hs
  | cons hd tl ih =>
    intro s hs
    refine ih (fun pr hpr => hl pr (List.mem_cons_of_mem _ hpr)) _ ?_
    intro c hc hws
    rcases mem_replaceAllF hd.1 hd.2 s.length s c hc with h | h
    · exact hs c h hws
    · exact absurd hws (by simp [hl hd (List.mem_cons_self _ _) c h])

theorem foldl_replace_head (l : List (List Char × List Char))
    (hl : ∀ pr ∈ l, pr.2 ≠ [] ∧ ∀ c ∈ pr.2, pySpace c = false) :
    ∀ s, (∀ c, s.head? = some c → pySpace c = false) →
      ∀ c, (l.foldl (fun t pr => replaceAll pr.1 pr.2 t) s).head? = some c →
        pySpace c = false := by
  induction l with
  | nil => intro s hs; exact hs
  | cons hd tl ih =>
    intro s hs
    refine ih (fun pr hpr => hl pr (List.mem_cons_of_mem _ hpr)) _ ?_
    intro c hc
    have h := hl hd (List.mem_cons_self _ _)
    rcases head?_replaceAllF hd.1 hd.2 h.1 s.length s c hc with h2 | h2
    · exact hs c h2
    · exact h.2 c h2

theorem foldl_replace_last (l : List (List Char × List Char))
    (hl : ∀ pr ∈ l, pr.2 ≠ [] ∧ ∀ c ∈ pr.2, pySpace c = false) :
    ∀ s, (∀ c, s.getLast? = some c → pySpace c = false) →
      ∀ c, (l.foldl (fun t pr => replaceAll pr.1 pr.2 t) s).getLast? = some c →
        pySpace c = false := by
  induction l with
  | nil => intro s hs; exact hs
  | cons hd tl ih =>
    intro s hs
    refine ih (fun pr hpr => hl pr (List.mem_cons_of_mem _ hpr)) _ ?_
    intro c hc
    have h := hl hd (List.mem_cons_self _ _)
    rcases getLast?_replaceAllF hd.1 hd.2 h.1 s.length s c hc with h2 | h2
    · exact hs c h2
    · exact h.2 c h2

theorem squeeze_head? : ∀ s : List Char, (squeeze s).head? = s.head? := by
  intro s
  induction s using squeeze.induct with
  | case1 => rfl
  | case2 c => rfl
  | case3 a b t hab ih =>
    rw [squeeze, if_pos hab, ih]
    simp [hab.1, hab.2]
  | case4 a b t hab ih =>
    rw [squeeze, if_neg hab]
    rfl

theorem isPrefixOf_single (x : Char) (z : List Char)
    (h : List.isPrefixOf [x] z = true) : z.head? = some x := by
  cases z with
  | nil => simp [List.isPrefixOf] at h
  | cons c t =>
    simp only [List.isPrefixOf, Bool.and_eq_true, beq_iff_eq] at h
    simp [h.1]

theorem squeeze_noDouble : ∀ s : List Char, containsSub [' ', ' '] (squeeze s) = false := by
  intro s
  induction s using squeeze.induct with
  | case1 => rfl
  | case2 c => simp [squeeze, containsSub, List.isPrefixOf]
  | case3 a b t hab ih =>
    rw [squeeze, if_pos hab]
    exact ih
  | case4 a b t hab ih =>
    rw [squeeze, if_neg hab]
    simp only [containsSub, Bool.or_eq_false_iff]
    refine ⟨?_, ih⟩
    cases hpre : List.isPrefixOf [' ', ' '] (a :: squeeze (b :: t)) with
    | false => rfl
    | true =>
      exfalso
      simp only [List.isPrefixOf, Bool.and_eq_true, beq_iff_eq] at hpre
      have hb : (squeeze (b :: t)).head? = some ' ' := isPrefixOf_single ' ' _ hpre.2
      rw [squeeze_head?] at hb
      simp only [List.head?_cons, Option.some.injEq] at hb
      exact hab ⟨hpre.1.symm, hb⟩

theorem mem_squeeze : ∀ (s : List Char) (c : Char), c ∈ squeeze s → c ∈ s := by
  intro s
  induction s using squeeze.induct with
  | case1 => intro c hc; exact hc
  | case2 d => intro c hc; exact hc
  | case3 a b t hab ih =>
    intro c hc
    rw [squeeze, if_pos hab] at hc
    exact List.mem_cons_of_mem _ (ih c hc)
  | case4 a b t hab ih =>
    intro c hc
    rw [squeeze, if_neg hab] at hc
    rcases List.mem_cons.mp hc with rfl | h
    · exact List.mem_cons_self _ _
    · exact List.mem_cons_of_mem _ (ih c h)

theorem squeeze_eq_self : ∀ s : List Char,
    containsSub [' ', ' '] s = false → squeeze s = s := by
  intro s
  induction s using squeeze.induct with
  | case1 => intro _; rfl
  | case2 c => intro _; rfl
  | case3 a b t hab ih =>
    intro h
    exfalso
    obtain ⟨ha, hb⟩ := hab
    subst ha hb
    simp [containsSub, List.isPrefixOf] at h
  | case4 a b t hab ih =>
    intro h
    rw [squeeze, if_neg hab, ih (containsSub_tail_false _ a _ h)]

theorem collapse_allWs (t : List Char) :
    ∀ c ∈ collapse t, pySpace c = true → c = ' ' := by
  intro c hc hws
  unfold collapse at hc
  have hmem := mem_squeeze _ c hc
  rcases List.mem_map.mp hmem with ⟨d, _, hfd⟩
  by_cases hd : pySpace d = true
  · rw [if_pos hd] at hfd
    exact hfd.symm
  · rw [if_neg hd] at hfd
    subst hfd
    exact absurd hws hd

theorem collapse_noDouble (t : List Char) :
    containsSub [' ', ' '] (collapse t) = false :=
  squeeze_noDouble _

theorem collapse_eq_self (x : List Char)
    (hall : ∀ c ∈ x, pySpace c = true → c = ' ')
    (hnd : containsSub [' ', ' '] x = false) : collapse x = x := by
  unfold collapse
  have hmap : x.map (fun c => if pySpace c then ' ' else c) = x := by
    induction x with
    | nil => rfl
    | cons a t ih =>
      simp only [List.map_cons]
      have ha : (if pySpace a then ' ' else a) = a := by
        by_cases h : pySpace a = true
        · rw [if_pos h, hall a (List.mem_cons_self _ _) h]
        · rw [if_neg h]
      rw [ha, ih (fun c hc => hall c (List.mem_cons_of_mem _ hc))
        (containsSub_tail_false _ a _ hnd)]
  rw [hmap]
  exact squeeze_eq_self x hnd

theorem head?_of_prefix_ne_nil {l1 l2 : List Char} (h : l1 <+: l2) (hne : l1 ≠ []) :
    l1.head? = l2.head? := by
  obtain ⟨t, rfl⟩ := h
  cases l1 with
  | nil => exact absurd rfl hne
  | cons a as => rfl

theorem strip_prefix_dropWhile (s : List Char) :
    strip s <+: s.dropWhile pySpace := by
  rw [← List.reverse_suffix]
  unfold strip
  rw [List.reverse_reverse]
  exact List.dropWhile_suffix pySpace

theorem strip_within_self (s : List Char) : strip s <:+: s :=
  (strip_prefix_dropWhile s).isInfix.trans (List.dropWhile_suffix pySpace).isInfix

theorem head?_dropWhile_no (p : Char → Bool) (l : List Char) (c : Char)
    (h : (l.dropWhile p).head? = some c) : p c = false := by
  have h2 := List.head?_dropWhile_not p l
  rw [h] at h2
  simpa using h2

theorem strip_head_no_ws (s : List Char) (c : Char)
    (h : (strip s).head? = some c) : pySpace c = false := by
  have hne : strip s ≠ [] := by
    intro he
    rw [he] at h
    simp at h
  have h2 : (s.dropWhile pySpace).head? = some c := by
    rw [← head?_of_prefix_ne_nil (strip_prefix_dropWhile s) hne]
    exact h
  exact head?_dropWhile_no pySpace s c h2

theorem strip_last_no_ws (s : List Char) (c : Char)
    (h : (strip s).getLast? = some c) : pySpace c = false := by
  unfold strip at h
  rw [show ∀ z : List Char, z.reverse.getLast? = z.head? from ?_] at h
  · exact head?_dropWhile_no pySpace _ c h
  · intro z
    have h3 := List.head?_reverse z.reverse
    rw [List.reverse_reverse] at h3
    exact h3.symm

theorem strip_eq_self (x : List Char)
    (hh : ∀ c, x.head? = some c → pySpace c = false)
    (hl : ∀ c, x.getLast? = some c → pySpace c = false) : strip x = x := by
  unfold strip
  have h1 : x.dropWhile pySpace = x := by
    cases x with
    | nil => rfl
    | cons a t =>
      have ha : pySpace a = false := hh a rfl
      simp [List.dropWhile_cons, ha]
  rw [h1]
  have h2 : x.reverse.dropWhile pySpace = x.reverse := by
    cases hx : x.reverse with
    | nil => rfl
    | cons a t =>
      have ha2 : x.getLast? = some a := by
        rw [← List.head?_reverse, hx]
        rfl
      have ha : pySpace a = false := hl a ha2
      simp [List.dropWhile_cons, ha]
  rw [h2, List.reverse_reverse]

theorem containsSub_true_iff (q : List Char) :
    ∀ s, containsSub q s = true ↔ q <:+: s := by
  intro s
  induction s with
  | nil =>
    constructor
    · intro h
      cases q with
      | nil => exact List.infix_rfl
      | cons a as => simp [containsSub] at h
    · intro h
      rw [List.eq_nil_of_infix_nil h]
      rfl
  | cons c t ih =>
    simp only [containsSub, Bool.or_eq_true, ih, List.infix_cons_iff,
      List.isPrefixOf_iff_prefix]

theorem containsSub_false_of_infix {q s' s : List Char}
    (hinf : s' <:+: s) (h : containsSub q s = false) : containsSub q s' = false := by
  cases hc : containsSub q s' with
  | false => rfl
  | true =>
    have : q <:+: s := ((containsSub_true_iff q s').mp hc).trans hinf
    rw [(containsSub_true_iff q s).mpr this] at h
    exact absurd h (by simp)

/-- C3: `clean` is idempotent — cleaning an already-cleaned text changes
nothing: the whitespace of a cleaned text is already collapsed and trimmed,
and one pass of the fix table removes every occurrence of every table
pattern without ever creating one (no replacement character occurs in any
pattern), so the second pass is the identity. -/
theorem clean_text_idempotent (t : List Char) :
    clean_text (clean_text t) = clean_text t := by
  by_cases h0 : t = []
  · subst h0; rfl
  · have hne_fixes : ∀ pr ∈ fixes, pr.1 ≠ [] ∧ pr.2 ≠ [] := by decide
    have hdisj_fixes : ∀ pr ∈ fixes, ∀ qr ∈ fixes, ∀ c ∈ pr.2, c ∉ qr.1 := by decide
    have hcomb_fixes : ∀ pr ∈ fixes, pr.2 ≠ [] ∧ ∀ c ∈ pr.2, pySpace c = false := by
      decide
    have hnws_fixes : ∀ pr ∈ fixes, ∀ c ∈ pr.2, pySpace c = false := by decide
    have hsp_fixes : ∀ pr ∈ fixes, pr.2 ≠ [] ∧ ∀ c ∈ pr.2, c ∉ ([' ', ' '] : List Char) := by
      decide
    have hct : clean_text t = applyFixes (strip (collapse t)) := by
      rw [clean_text, if_neg h0]
    rw [hct]
    have hall_y : ∀ c ∈ strip (collapse t), pySpace c = true → c = ' ' :=
      fun c hc => collapse_allWs t c ((strip_within_self (collapse t)).subset hc)
    have hnd_y : containsSub [' ', ' '] (strip (collapse t)) = false :=
      containsSub_false_of_infix (strip_within_self (collapse t)) (collapse_noDouble t)
    have hall_x : ∀ c ∈ applyFixes (strip (collapse t)), pySpace c = true → c = ' ' :=
      foldl_replace_allWs fixes hnws_fixes (strip (collapse t)) hall_y
    have hnd_x : containsSub [' ', ' '] (applyFixes (strip (collapse t))) = false :=
      foldl_replace_preserve fixes [' ', ' '] hsp_fixes (strip (collapse t)) hnd_y
    have hh_x : ∀ c, (applyFixes (strip (collapse t))).head? = some c →
        pySpace c = false :=
      foldl_replace_head fixes hcomb_fixes (strip (collapse t))
        (fun c hc => strip_head_no_ws (collapse t) c hc)
    have hl_x : ∀ c, (applyFixes (strip (collapse t))).getLast? = some c →
        pySpace c = false :=
      foldl_replace_last fixes hcomb_fixes (strip (collapse t))
        (fun c hc => strip_last_no_ws (collapse t) c hc)
    have hnp_x : ∀ pr ∈ fixes,
        containsSub pr.1 (applyFixes (strip (collapse t))) = false :=
      foldl_replace_no_pattern fixes hne_fixes hdisj_fixes (strip (collapse t))
    by_cases hx0 : applyFixes (strip (collapse t)) = []
    · rw [hx0]; rfl
    · rw [clean_text, if_neg hx0]
      rw [collapse_eq_self _ hall_x hnd_x]
      rw [strip_eq_self _ hh_x hl_x]
      show applyFixes (applyFixes (strip (collapse t))) = applyFixes (strip (collapse t))
      exact foldl_replace_id fixes _ hnp_x
